import Mathlib

/-!
Verification of the argparser library (option registry, argument classifier,
and the fmt_str text-layout functions) against its natural-language
specification.  The C code is shallowly embedded: C strings become `String`
or `List Char`, sentinel-terminated descriptor arrays become Lean lists
holding the descriptors that precede the sentinel, the growable index and
parameter pools become Lean lists, and functions that print an error and
exit become `Except String` results.
-/

namespace Argparser

/-- Model of C `isalnum` under the default locale (ASCII letters and digits). -/
def c_isalnum (c : Char) : Bool :=
  (decide ('0' ≤ c) && decide (c ≤ '9')) ||
  (decide ('a' ≤ c) && decide (c ≤ 'z')) ||
  (decide ('A' ≤ c) && decide (c ≤ 'Z'))

/-- Model of `has_text` in argparser.c: a string has text iff it is non-empty
and contains a character other than a plain space. -/
def has_text (s : String) : Bool :=
  s.data.any (fun c => c != ' ')

/-- Descriptor shape from argparser.h (`struct arg_option`).  The C `char`
field `ch_short` uses the NUL character for "absent". -/
structure ArgOption where
  b : Bool
  ch_short : Char
  s_long : String
  s_keyword : String
  s_hint : String
  s_desc : String
  s_group : String
deriving DecidableEq, Inhabited

/-- Model of `has_alnum_text` in argparser.c. -/
def has_alnum_text (s : String) : Bool :=
  if !(has_text s) then false
  else s.data.all c_isalnum

/-- Model of `is_valid_option` in argparser.c. -/
def is_valid_option (o : ArgOption) : Bool :=
  if !(o.ch_short == Char.ofNat 0) && !(c_isalnum o.ch_short) then false
  else if has_text o.s_long && !(has_alnum_text o.s_long) then false
  else if has_text o.s_keyword && !(has_alnum_text o.s_keyword) then false
  else if !(!(o.ch_short == Char.ofNat 0) || has_text o.s_long || has_text o.s_keyword) then false
  else if !o.b && !(has_text o.s_hint) then false
  else if o.b && has_text o.s_hint then false
  else if !(has_text o.s_desc) then false
  else true

/-- The per-pair identifier clash test performed inside `has_duplicated_ids`:
a non-NUL shared short character, a non-empty shared long name, or a
non-empty shared keyword. -/
def sharesId (nw old : ArgOption) : Bool :=
  (!(nw.ch_short == Char.ofNat 0) && nw.ch_short == old.ch_short) ||
  (!(nw.s_long == "") && nw.s_long == old.s_long) ||
  (!(nw.s_keyword == "") && nw.s_keyword == old.s_keyword)

/-- Model of `has_duplicated_ids` in argparser.c: every descriptor is compared
against all earlier ones. -/
def has_duplicated_ids (os : List ArgOption) : Bool :=
  (List.range os.length).any (fun i =>
    (List.range i).any (fun j =>
      sharesId (os.getD i default) (os.getD j default)))

/-- First index whose element satisfies the predicate; models the C pattern
`for (j = 0; j < size; j++) if (match) break;` used in the lookup loops. -/
def firstIdx (p : ArgOption → Bool) : List ArgOption → Option Nat
  | [] => none
  | o :: rest => if p o then some 0 else (firstIdx p rest).map (fun k => k + 1)

/-- Model of `struct group` in argparser.c: member options are stored as
pointers `os + i`, modelled here by the index `i` into the table. -/
structure OptGroup where
  name : String
  opts : List Nat
deriving DecidableEq, Inhabited

/-- The group label actually used for a descriptor: its `s_group` when it has
text, otherwise the default label. -/
def effGroupName (o : ArgOption) : String :=
  if has_text o.s_group then o.s_group else "Options"

/-- The duplicate-group search loop inside `group_options`: scans only the
first `localSize` groups (the C loop bound is the local `size_grps` variable,
not `mem->size_grps`), keeping the last matching index. -/
def searchGrp (grps : List OptGroup) (localSize : Nat) (name : String) : Option Nat :=
  (List.range localSize).foldl
    (fun acc j =>
      match grps.get? j with
      | some g => if g.name == name then some j else acc
      | none => acc)
    none

/-- Appends option index `i` to the member list of group `k`. -/
def addOptToGrp (grps : List OptGroup) (k i : Nat) : List OptGroup :=
  match grps.get? k with
  | some g => grps.set k ⟨g.name, g.opts ++ [i]⟩
  | none => grps

/-- Loop body of `group_options`.  `localSize` models the local `size_grps`
variable of the C function: it is set to 1 when the very first group is
created and is never updated afterwards, while the stored group list grows
(`mem->size_grps++`) whenever no match is found among the first `localSize`
groups. -/
def group_optionsGo : List ArgOption → Nat → List OptGroup → Nat → List OptGroup
  | [], _, grps, _ => grps
  | o :: rest, i, grps, localSize =>
    let name := effGroupName o
    if grps.isEmpty then
      group_optionsGo rest (i + 1) [⟨name, [i]⟩] 1
    else
      match searchGrp grps localSize name with
      | some k => group_optionsGo rest (i + 1) (addOptToGrp grps k i) localSize
      | none => group_optionsGo rest (i + 1) (grps ++ [⟨name, [i]⟩]) localSize

/-- Model of `group_options` in argparser.c. -/
def group_options (os : List ArgOption) : List OptGroup :=
  group_optionsGo os 0 [] 0

/-- Model of `argparser_setup` in argparser.c.  The input list holds the
descriptors that precede the all-empty end mark of the C array (the C size
scan).  NULL-pointer failures cannot arise in the embedding; the remaining
fatal exits become `Except.error`. -/
def argparser_setup (options : List ArgOption) (version : String) : Except String (List OptGroup) :=
  if !(has_text version) then Except.error ("Version cannot be empty string.")
  else
    match firstIdx (fun o => !(is_valid_option o)) options with
    | some i => Except.error ("invalid format of options[" ++ toString i ++ "]")
    | none =>
      if has_duplicated_ids options then
        Except.error ("duplicated identifiers declared")
      else Except.ok (group_options options)

/-- The flag, boolean-flag and positional-parameter pools of `struct memory`;
their C size fields are the lengths of these lists. -/
structure ParseState where
  flags : List Nat
  bflags : List Nat
  params : List String
deriving DecidableEq, Inhabited

/-- Decidable equality of `Except` results, used to evaluate the model on
concrete inputs. -/
instance exceptDecEq {ε α : Type} [DecidableEq ε] [DecidableEq α] : DecidableEq (Except ε α) :=
  fun x y =>
    match x, y with
    | Except.ok a, Except.ok b =>
      if h : a = b then Decidable.isTrue (by rw [h])
      else Decidable.isFalse (by intro hc; cases hc; exact h rfl)
    | Except.error a, Except.error b =>
      if h : a = b then Decidable.isTrue (by rw [h])
      else Decidable.isFalse (by intro hc; cases hc; exact h rfl)
    | Except.ok _, Except.error _ => Decidable.isFalse (by intro hc; cases hc)
    | Except.error _, Except.ok _ => Decidable.isFalse (by intro hc; cases hc)

/-- The recording step shared by all three lookup branches of
`argparser_parse`: a boolean option index goes to the boolean pool unless
already present (`in_bflags`), a non-boolean index goes to the value pool
unless already present (`in_flags`); `add_to_bflags`/`add_to_flags` append
at the end. -/
def record (opts : List ArgOption) (j : Nat) (st : ParseState) : ParseState :=
  match opts[j]? with
  | none => st
  | some o =>
    if o.b then
      if j ∈ st.bflags then st
      else { st with bflags := st.bflags ++ [j] }
    else
      if j ∈ st.flags then st
      else { st with flags := st.flags ++ [j] }

/-- The long-name lookup loop of `argparser_parse` (strcmp against `s_long`). -/
def findLong (opts : List ArgOption) (s : String) : Option Nat :=
  firstIdx (fun o => o.s_long == s) opts

/-- The short-character lookup loop of `argparser_parse`. -/
def findShort (opts : List ArgOption) (c : Char) : Option Nat :=
  firstIdx (fun o => o.ch_short == c) opts

/-- The keyword lookup loop of `argparser_parse` (strcmp against `s_keyword`). -/
def findKeyword (opts : List ArgOption) (s : String) : Option Nat :=
  firstIdx (fun o => o.s_keyword == s) opts

/-- The short-flag clustering loop of `argparser_parse`: each character after
the dash is resolved independently; an unknown character is fatal. -/
def parseCluster (opts : List ArgOption) : List Char → ParseState → Except String ParseState
  | [], st => Except.ok st
  | c :: rest, st =>
    match findShort opts c with
    | some j => parseCluster opts rest (record opts j st)
    | none => Except.error ("Unknown flag")

/-- Processing of one argv token by `argparser_parse`.  `size_arg` in C is
`strlen + 1`, so `size_arg >= 3` means a token of length at least 2. -/
def parseToken (opts : List ArgOption) (arg : String) (st : ParseState) : Except String ParseState :=
  let cs := arg.data
  if 2 ≤ cs.length then
    if cs.get? 0 = some '-' then
      if cs.get? 1 = some '-' then
        if cs.length = 2 then Except.error ("Invalid argument, --")
        else
          match findLong opts (String.mk (cs.drop 2)) with
          | some j => Except.ok (record opts j st)
          | none => Except.error ("Unknown flag")
      else
        parseCluster opts (cs.drop 1) st
    else
      match findKeyword opts arg with
      | some j => Except.ok (record opts j st)
      | none => Except.ok ⟨st.flags, st.bflags, st.params ++ [arg]⟩
  else
    if cs.get? 0 = some '-' then Except.error ("Invalid argument, -")
    else Except.ok ⟨st.flags, st.bflags, st.params ++ [arg]⟩

/-- The token loop of `argparser_parse`, stopping at the first fatal error. -/
def parseArgs (opts : List ArgOption) : List String → ParseState → Except String ParseState
  | [], st => Except.ok st
  | a :: rest, st =>
    match parseToken opts a st with
    | Except.ok st2 => parseArgs opts rest st2
    | Except.error e => Except.error e

/-- Model of `argparser_parse` in argparser.c.  `args` holds the tokens after
the program name (`argv[1..argc-1]`); the pools start empty. -/
def argparser_parse (opts : List ArgOption) (args : List String) : Except String ParseState :=
  parseArgs opts args ⟨[], [], []⟩

/-- Model of `argparser_flags`.  The function receives the addresses of the
caller's `size` and `arr` variables; the pair returned holds their values
after the call.  The C body executes `*size = mem->size_flags` (so the first
component is the pool length) and then `arr = mem->flags`, an assignment to
the local parameter copy that never reaches the caller (so the second
component is the caller's old value, unchanged). -/
def argparser_flags (st : ParseState) (size0 : Nat) (arr0 : List Nat) : Nat × List Nat :=
  (st.flags.length, arr0)

/-- Model of `argparser_bflags`; same pointer behaviour as `argparser_flags`. -/
def argparser_bflags (st : ParseState) (size0 : Nat) (arr0 : List Nat) : Nat × List Nat :=
  (st.bflags.length, arr0)

/-- Model of `argparser_params`; same pointer behaviour as `argparser_flags`. -/
def argparser_params (st : ParseState) (size0 : Nat) (arr0 : List String) : Nat × List String :=
  (st.params.length, arr0)

/-- True when a setup result is a fatal error. -/
def isErr : Except String (List OptGroup) → Bool
  | Except.error _ => true
  | Except.ok _ => false

/-- Two descriptors somewhere in the table share a non-empty identifier
(later one compared against an earlier one). -/
def HasDup (os : List ArgOption) : Prop :=
  ∃ i j, j < i ∧ i < os.length ∧ sharesId (os.getD i default) (os.getD j default) = true

/-- Specification predicate for claim C3/C4: a token the classifier turns
into a positional parameter — either length at least 2, not starting with a
dash and matching no keyword, or length at most 1 and not the bare dash. -/
def isPositionalTok (opts : List ArgOption) (arg : String) : Bool :=
  if 2 ≤ arg.data.length then
    !(arg.data.get? 0 == some '-') && (findKeyword opts arg).isNone
  else
    !(arg.data.get? 0 == some '-')

/-- Invariant of the classifier pools: boolean-pool indices denote boolean
descriptors, value-pool indices denote non-boolean descriptors, and all
indices are within the table. -/
def FlagInv (opts : List ArgOption) (st : ParseState) : Prop :=
  (∀ j ∈ st.bflags, j < opts.length ∧ (opts.getD j default).b = true) ∧
  (∀ j ∈ st.flags, j < opts.length ∧ (opts.getD j default).b = false)

end Argparser

namespace Fmt

open Argparser (c_isalnum)

/-- The open-bracket and quote characters that `index_of_delim` refuses to
break after (the C string literal is left-angle, apostrophe, double quote,
left square bracket, left curly brace, left parenthesis). -/
def is_open_char (c : Char) : Bool :=
  c == '<' || c == Char.ofNat 39 || c == Char.ofNat 34 ||
  c == '[' || c == Char.ofNat 123 || c == '('

/-- A delimiter for wrapping: any character that is neither alphanumeric nor
an open character. -/
def is_delim (c : Char) : Bool :=
  !(c_isalnum c) && !(is_open_char c)

/-- Downward scan of `index_of_delim` from index `i` while `i > b`.  The C
caller always supplies in-range indices; an out-of-range index is skipped. -/
def index_of_delimGo (src : List Char) (b : Nat) : Nat → Option Nat
  | 0 => none
  | i + 1 =>
    if i + 1 ≤ b then none
    else
      match src.get? (i + 1) with
      | some c => if is_delim c then some (i + 1) else index_of_delimGo src b i
      | none => index_of_delimGo src b i

/-- Model of `index_of_delim` in fmt_str.c: index of the last delimiter in
`(b, e]`, or none. -/
def index_of_delim (src : List Char) (b e : Nat) : Option Nat :=
  index_of_delimGo src b e

/-- Upward scan of `index_of_char` with explicit fuel; the wrapper supplies
enough fuel to reach the end of the string. -/
def index_of_charGo (src : List Char) : Nat → Nat → Option Nat
  | 0, _ => none
  | fuel + 1, i =>
    match src.get? i with
    | some c => if c_isalnum c || !(c == ' ') then some i else index_of_charGo src fuel (i + 1)
    | none => none

/-- Model of `index_of_char` in fmt_str.c: the first index at or after `b`
holding a character that is alphanumeric or not a plain space. -/
def index_of_char (src : List Char) (b : Nat) : Option Nat :=
  index_of_charGo src (src.length + 1 - b) b

/-- Loop body of `strwrap`.  Each iteration emits the undecorated chunk of
one output line: up to the last delimiter in range on a normal wrap, or the
full width-limited slice on a hard wrap; the next start index skips the
following run of plain spaces (`index_of_char`), and the loop stops when no
content remains (`begin_index == -1` in C, `none` here) or the loop guard
fails, in which case the remaining text is emitted as the final chunk.  The
fuel argument is structural bookkeeping; `strwrap` supplies `length + 1`,
which is never exhausted when the width exceeds the decoration length. -/
def strwrapGo (src : List Char) (lw extra : Nat) : Nat → Nat → List (List Char)
  | _, 0 => []
  | b, fuel + 1 =>
    let e := b + lw - 1 - extra
    if b < src.length ∧ e < src.length then
      let cut := match index_of_delim src b e with
        | none => e
        | some d => d
      let chunk := (src.drop b).take (cut - b + 1)
      match index_of_char src (cut + 1) with
      | none => [chunk]
      | some b2 => chunk :: strwrapGo src lw extra b2 fuel
    else if b < src.length then
      [src.drop b]
    else []

/-- Model of `strwrap` in fmt_str.c, returning the produced lines without
their terminating newline characters.  Each emitted line is the prefix, the
chunk, then the postfix (the C code `strcat`s exactly these three pieces and
a newline per line; empty decorations contribute length 0 to `len_extra`). -/
def strwrap (src : List Char) (lw : Nat) (pre post : List Char) : List (List Char) :=
  (strwrapGo src lw (pre.length + post.length) 0 (src.length + 1)).map
    (fun ch => pre ++ ch ++ post)

end Fmt

namespace Argparser

def optV : ArgOption := ⟨true, 'v', "verbose", "", "", "Prints verbose messages", ""⟩

def optF : ArgOption := ⟨false, 'f', "fetch", "fetch", "[day]", "Fetches records", ""⟩

def tblV : List ArgOption := [optV, optF]

def mkG (c : Char) (g : String) : ArgOption := ⟨true, c, "", "", "", "d", g⟩

def tblG : List ArgOption :=
  [mkG 'a' "A", mkG 'b' "B", mkG 'c' "A", mkG 'd' "C", mkG 'e' "B", mkG 'f' "D"]

def tblK : List ArgOption := [⟨true, Char.ofNat 0, "", "a", "", "d", ""⟩]

def optX1 : ArgOption := ⟨true, 'x', "", "", "", "d1", ""⟩

def optX2 : ArgOption := ⟨true, 'x', "xtra", "", "", "d2", ""⟩

def tblX : List ArgOption := [optX1, optX2]

/-- The state reached after classifying one value flag, one boolean flag and
one positional parameter; used to exercise the accessors. -/
def exAccessSt : ParseState := ⟨[1], [0], ["p"]⟩

end Argparser

namespace Fmt

end Fmt

namespace Argparser

theorem firstIdx_some_lt {p : ArgOption → Bool} :
    ∀ {l : List ArgOption} {j : Nat}, firstIdx p l = some j → j < l.length := by
  intro l
  induction l with
  | nil => intro j h; simp [firstIdx] at h
  | cons o rest ih =>
    intro j h
    simp only [firstIdx] at h
    by_cases hp : p o
    · rw [if_pos hp] at h
      cases h
      simp
    · rw [if_neg hp] at h
      rcases Option.map_eq_some'.mp h with ⟨k, hk, rfl⟩
      have := ih hk
      simp only [List.length_cons]
      omega

theorem firstIdx_some_get {p : ArgOption → Bool} :
    ∀ {l : List ArgOption} {j : Nat}, firstIdx p l = some j → p (l.getD j default) = true := by
  intro l
  induction l with
  | nil => intro j h; simp [firstIdx] at h
  | cons o rest ih =>
    intro j h
    simp only [firstIdx] at h
    by_cases hp : p o
    · rw [if_pos hp] at h
      cases h
      simpa using hp
    · rw [if_neg hp] at h
      rcases Option.map_eq_some'.mp h with ⟨k, hk, rfl⟩
      simpa using ih hk

theorem firstIdx_none_of_all {p : ArgOption → Bool} :
    ∀ (l : List ArgOption), (∀ x ∈ l, p x = false) → firstIdx p l = none := by
  intro l
  induction l with
  | nil => intro _; rfl
  | cons o rest ih =>
    intro h
    simp only [firstIdx]
    rw [if_neg (by simp [h o (by simp)]), ih (fun x hx => h x (by simp [hx]))]
    rfl

theorem record_params (opts : List ArgOption) (j : Nat) (st : ParseState) :
    (record opts j st).params = st.params := by
  cases hget : opts[j]? with
  | none => simp only [record, hget]
  | some o =>
    simp only [record, hget]
    by_cases hb : o.b = true
    · rw [if_pos hb]
      by_cases hm : j ∈ st.bflags
      · rw [if_pos hm]
      · rw [if_neg hm]
    · rw [if_neg hb]
      by_cases hm : j ∈ st.flags
      · rw [if_pos hm]
      · rw [if_neg hm]

theorem nodup_concat_of_not_mem {l : List Nat} {j : Nat}
    (h : l.Nodup) (hm : j ∉ l) : (l ++ [j]).Nodup := by
  simp [List.nodup_append, h, hm]

theorem record_nodup (opts : List ArgOption) (j : Nat) (st : ParseState)
    (h1 : st.bflags.Nodup) (h2 : st.flags.Nodup) :
    (record opts j st).bflags.Nodup ∧ (record opts j st).flags.Nodup := by
  cases hget : opts[j]? with
  | none => simp only [record, hget]; exact ⟨h1, h2⟩
  | some o =>
    simp only [record, hget]
    by_cases hb : o.b = true
    · rw [if_pos hb]
      by_cases hm : j ∈ st.bflags
      · rw [if_pos hm]; exact ⟨h1, h2⟩
      · rw [if_neg hm]; exact ⟨nodup_concat_of_not_mem h1 hm, h2⟩
    · rw [if_neg hb]
      by_cases hm : j ∈ st.flags
      · rw [if_pos hm]; exact ⟨h1, h2⟩
      · rw [if_neg hm]; exact ⟨h1, nodup_concat_of_not_mem h2 hm⟩

theorem record_inv (opts : List ArgOption) (j : Nat) (st : ParseState)
    (h : FlagInv opts st) : FlagInv opts (record opts j st) := by
  obtain ⟨hb, hf⟩ := h
  unfold FlagInv
  cases hget : opts[j]? with
  | none => simp only [record, hget]; exact ⟨hb, hf⟩
  | some o =>
    simp only [record, hget]
    have hj : j < opts.length := by
      rcases List.getElem?_eq_some.mp hget with ⟨hlt, _⟩
      exact hlt
    have hgd : opts.getD j default = o := by
      rw [List.getD_eq_getElem?_getD, hget]
      rfl
    by_cases hob : o.b = true
    · rw [if_pos hob]
      by_cases hm : j ∈ st.bflags
      · rw [if_pos hm]; exact ⟨hb, hf⟩
      · rw [if_neg hm]
        refine ⟨?_, hf⟩
        intro k hk
        rcases List.mem_append.mp hk with hk1 | hk2
        · exact hb k hk1
        · rcases List.mem_singleton.mp hk2 with rfl
          exact ⟨hj, by rw [hgd]; exact hob⟩
    · rw [if_neg hob]
      by_cases hm : j ∈ st.flags
      · rw [if_pos hm]; exact ⟨hb, hf⟩
      · rw [if_neg hm]
        refine ⟨hb, ?_⟩
        intro k hk
        rcases List.mem_append.mp hk with hk1 | hk2
        · exact hf k hk1
        · rcases List.mem_singleton.mp hk2 with rfl
          refine ⟨hj, ?_⟩
          rw [hgd]
          exact Bool.not_eq_true o.b |>.mp hob

theorem parseCluster_ok (opts : List ArgOption) :
    ∀ (cs : List Char) (st st2 : ParseState),
      parseCluster opts cs st = Except.ok st2 →
      st2.params = st.params ∧
      (st.bflags.Nodup → st.flags.Nodup → st2.bflags.Nodup ∧ st2.flags.Nodup) ∧
      (FlagInv opts st → FlagInv opts st2) := by
  intro cs
  induction cs with
  | nil =>
    intro st st2 h
    simp only [parseCluster] at h
    cases h
    exact ⟨rfl, fun a b => ⟨a, b⟩, fun a => a⟩
  | cons c rest ih =>
    intro st st2 h
    simp only [parseCluster] at h
    cases hfs : findShort opts c with
    | none => rw [hfs] at h; cases h
    | some j =>
      rw [hfs] at h
      rcases ih (record opts j st) st2 h with ⟨hp, hn, hi⟩
      refine ⟨hp.trans (record_params opts j st), ?_, ?_⟩
      · intro a b
        rcases record_nodup opts j st a b with ⟨a2, b2⟩
        exact hn a2 b2
      · intro a
        exact hi (record_inv opts j st a)

theorem parseToken_ok (opts : List ArgOption) (a : String) (st st2 : ParseState)
    (h : parseToken opts a st = Except.ok st2) :
    st2.params = st.params ++ (if isPositionalTok opts a then [a] else []) ∧
    (st.bflags.Nodup → st.flags.Nodup → st2.bflags.Nodup ∧ st2.flags.Nodup) ∧
    (FlagInv opts st → FlagInv opts st2) := by
  simp only [parseToken] at h
  by_cases h2 : 2 ≤ a.data.length
  · rw [if_pos h2] at h
    by_cases hd0 : a.data.get? 0 = some '-'
    · rw [if_pos hd0] at h
      have hpos : isPositionalTok opts a = false := by
        simp only [isPositionalTok]
        rw [if_pos h2, hd0]
        simp
      by_cases hd1 : a.data.get? 1 = some '-'
      · rw [if_pos hd1] at h
        by_cases hl2 : a.data.length = 2
        · rw [if_pos hl2] at h; cases h
        · rw [if_neg hl2] at h
          cases hfl : findLong opts (String.mk (a.data.drop 2)) with
          | none => rw [hfl] at h; cases h
          | some j =>
            rw [hfl] at h
            cases h
            refine ⟨?_, record_nodup opts j st, record_inv opts j st⟩
            rw [record_params, hpos]
            simp
      · rw [if_neg hd1] at h
        rcases parseCluster_ok opts (a.data.drop 1) st st2 h with ⟨hp, hn, hi⟩
        refine ⟨?_, hn, hi⟩
        rw [hp, hpos]
        simp
    · rw [if_neg hd0] at h
      cases hfk : findKeyword opts a with
      | some j =>
        rw [hfk] at h
        cases h
        have hpos : isPositionalTok opts a = false := by
          simp only [isPositionalTok]
          rw [if_pos h2, hfk]
          simp
        refine ⟨?_, record_nodup opts j st, record_inv opts j st⟩
        rw [record_params, hpos]
        simp
      | none =>
        rw [hfk] at h
        cases h
        have hb0 : (a.data.get? 0 == some '-') = false := beq_eq_false_iff_ne.mpr hd0
        have hpos : isPositionalTok opts a = true := by
          simp only [isPositionalTok]
          rw [if_pos h2, hb0, hfk]
          simp
        exact ⟨by simp [hpos], fun u v => ⟨u, v⟩, fun hin => ⟨hin.1, hin.2⟩⟩
  · rw [if_neg h2] at h
    by_cases hd0 : a.data.get? 0 = some '-'
    · rw [if_pos hd0] at h; cases h
    · rw [if_neg hd0] at h
      cases h
      have hb0 : (a.data.get? 0 == some '-') = false := beq_eq_false_iff_ne.mpr hd0
      have hpos : isPositionalTok opts a = true := by
        simp only [isPositionalTok]
        rw [if_neg h2, hb0]
        simp
      exact ⟨by simp [hpos], fun u v => ⟨u, v⟩, fun hin => ⟨hin.1, hin.2⟩⟩

theorem parseArgs_ok (opts : List ArgOption) :
    ∀ (args : List String) (st st2 : ParseState),
      parseArgs opts args st = Except.ok st2 →
      st2.params = st.params ++ args.filter (isPositionalTok opts) ∧
      (st.bflags.Nodup → st.flags.Nodup → st2.bflags.Nodup ∧ st2.flags.Nodup) ∧
      (FlagInv opts st → FlagInv opts st2) := by
  intro args
  induction args with
  | nil =>
    intro st st2 h
    simp only [parseArgs] at h
    cases h
    exact ⟨by simp, fun u v => ⟨u, v⟩, fun hin => hin⟩
  | cons a rest ih =>
    intro st st2 h
    simp only [parseArgs] at h
    cases htok : parseToken opts a st with
    | error e => rw [htok] at h; cases h
    | ok st1 =>
      rw [htok] at h
      rcases parseToken_ok opts a st st1 htok with ⟨hp1, hn1, hi1⟩
      rcases ih st1 st2 h with ⟨hp2, hn2, hi2⟩
      refine ⟨?_, ?_, fun hin => hi2 (hi1 hin)⟩
      · rw [hp2, hp1]
        by_cases hpos : isPositionalTok opts a
        · simp [List.filter_cons, hpos]
        · simp [List.filter_cons, hpos]
      · intro u v
        rcases hn1 u v with ⟨u1, v1⟩
        exact hn2 u1 v1

/-- C2: for every table and argument vector that classify successfully, each
matched option index is recorded at most once in the boolean-flag pool and at
most once in the value-flag pool, however often the option is mentioned (the
pools end up duplicate-free). -/
theorem c2_flag_idempotent (opts : List ArgOption) (args : List String) (st : ParseState)
    (h : argparser_parse opts args = Except.ok st) :
    st.bflags.Nodup ∧ st.flags.Nodup :=
  (parseArgs_ok opts args ⟨[], [], []⟩ st h).2.1 (by simp) (by simp)

/-- Witness for C2 at the claim's own example: `-v`/`--verbose` alias one
boolean option and classifying `-v -v --verbose` stores its index once. -/
theorem c2_witness :
    argparser_parse tblV ["-v", "-v", "--verbose"] = Except.ok ⟨[], [0], []⟩ ∧
    (ParseState.mk [] [0] []).bflags.Nodup ∧ (ParseState.mk [] [0] []).flags.Nodup :=
  ⟨by decide, c2_flag_idempotent tblV ["-v", "-v", "--verbose"] ⟨[], [0], []⟩ (by decide)⟩

/-- C3: for every table and argument vector that classify successfully, the
positional pool is exactly the subsequence of input tokens that resolve to no
option, verbatim, in input order and with duplicates kept. -/
theorem c3_positionals_preserved (opts : List ArgOption) (args : List String) (st : ParseState)
    (h : argparser_parse opts args = Except.ok st) :
    st.params = args.filter (isPositionalTok opts) := by
  have hmain := (parseArgs_ok opts args ⟨[], [], []⟩ st h).1
  simpa using hmain

/-- Witness for C3 at the claim's own example: classifying `a b a` with no
matching option yields positionals `a b a`. -/
theorem c3_witness :
    argparser_parse tblV ["a", "b", "a"] = Except.ok ⟨[], [], ["a", "b", "a"]⟩ ∧
    (ParseState.mk [] [] ["a", "b", "a"]).params = ["a", "b", "a"].filter (isPositionalTok tblV) ∧
    ["a", "b", "a"].filter (isPositionalTok tblV) = ["a", "b", "a"] :=
  ⟨by decide,
   c3_positionals_preserved tblV ["a", "b", "a"] ⟨[], [], ["a", "b", "a"]⟩ (by decide),
   by decide⟩

/-- C10: after any successful classification, boolean-pool indices denote
boolean descriptors, value-pool indices denote non-boolean descriptors, and
all recorded indices are within the table. -/
theorem c10_flag_invariant (opts : List ArgOption) (args : List String) (st : ParseState)
    (h : argparser_parse opts args = Except.ok st) :
    FlagInv opts st :=
  (parseArgs_ok opts args ⟨[], [], []⟩ st h).2.2 ⟨by simp, by simp⟩

/-- Witness for C10 on a mixed run: one boolean flag, one positional and one
value flag. -/
theorem c10_witness :
    argparser_parse tblV ["-v", "ab", "-f"] = Except.ok ⟨[1], [0], ["ab"]⟩ ∧
    FlagInv tblV ⟨[1], [0], ["ab"]⟩ :=
  ⟨by decide, c10_flag_invariant tblV ["-v", "ab", "-f"] ⟨[1], [0], ["ab"]⟩ (by decide)⟩

/-- Counterexample for C4 as stated: descriptor 0 of `tblK` declares the
keyword `a`, yet classifying the single-character token `a` appends it to the
positionals and records nothing, because tokens of length at most one are
never looked up against keywords. -/
theorem c4_counterexample :
    findKeyword tblK "a" = some 0 ∧
    argparser_parse tblK ["a"] = Except.ok ⟨[], [], ["a"]⟩ ∧
    (ParseState.mk [] [] ["a"]).bflags ≠ [0] := by decide

/-- C4 (amended): a token that does not begin with a dash is looked up
against every descriptor's keyword field only when its length is at least
two; in that case a match records the descriptor's index (by arity) and a
miss appends the token to the positionals, while a token of length at most
one always becomes a positional without any keyword lookup. -/
theorem c4_keyword_lookup_amended (opts : List ArgOption) (a : String) (st : ParseState)
    (hd : a.data.get? 0 ≠ some '-') :
    parseToken opts a st =
      if 2 ≤ a.data.length then
        match findKeyword opts a with
        | some j => Except.ok (record opts j st)
        | none => Except.ok ⟨st.flags, st.bflags, st.params ++ [a]⟩
      else Except.ok ⟨st.flags, st.bflags, st.params ++ [a]⟩ := by
  simp only [parseToken]
  by_cases h2 : 2 ≤ a.data.length
  · rw [if_pos h2, if_pos h2, if_neg hd]
  · rw [if_neg h2, if_neg h2, if_neg hd]

/-- Witness for C4's amended theorem at the two-character token `ab`. -/
theorem c4_witness :
    ("ab".data.get? 0 ≠ some '-') ∧
    parseToken tblV "ab" ⟨[], [], []⟩ =
      (if 2 ≤ "ab".data.length then
        match findKeyword tblV "ab" with
        | some j => Except.ok (record tblV j ⟨[], [], []⟩)
        | none => Except.ok ⟨[], [], [] ++ ["ab"]⟩
      else Except.ok ⟨[], [], [] ++ ["ab"]⟩) :=
  ⟨by decide, c4_keyword_lookup_amended tblV "ab" ⟨[], [], []⟩ (by decide)⟩

theorem has_duplicated_ids_iff (os : List ArgOption) :
    has_duplicated_ids os = true ↔ HasDup os := by
  unfold has_duplicated_ids HasDup
  simp only [List.any_eq_true, List.mem_range]
  constructor
  · rintro ⟨i, hi, j, hj, hs⟩
    exact ⟨i, j, hj, hi, hs⟩
  · rintro ⟨i, j, hj, hi, hs⟩
    exact ⟨i, hi, j, hj, hs⟩

/-- C5: for a table of individually valid descriptors and a non-empty
version string, setup fails exactly when two descriptors share a non-NUL
short character, a non-empty long name, or a non-empty keyword (each later
descriptor compared with every earlier one); otherwise it passes the check
and succeeds. -/
theorem c5_duplicate_rejection (os : List ArgOption) (v : String)
    (hv : has_text v = true) (hval : ∀ o ∈ os, is_valid_option o = true) :
    isErr (argparser_setup os v) = true ↔ HasDup os := by
  have hnone : firstIdx (fun o => !(is_valid_option o)) os = none :=
    firstIdx_none_of_all os (fun x hx => by rw [hval x hx]; rfl)
  by_cases hdup : has_duplicated_ids os = true
  · have h1 : isErr (argparser_setup os v) = true := by
      simp [argparser_setup, hv, hnone, hdup, isErr]
    rw [h1]
    exact ⟨fun _ => (has_duplicated_ids_iff os).mp hdup, fun _ => rfl⟩
  · have hdup' : has_duplicated_ids os = false := by
      simpa using hdup
    have h1 : isErr (argparser_setup os v) = false := by
      simp [argparser_setup, hv, hnone, hdup', isErr]
    rw [h1]
    constructor
    · intro hh
      exact absurd hh (by simp)
    · intro hd
      exact absurd ((has_duplicated_ids_iff os).mpr hd) (by simp [hdup'])

/-- Witness for C5 at the claim's own example: two descriptors both declaring
the short character `x` make setup fail. -/
theorem c5_witness :
    (has_text "1.0" = true) ∧ (∀ o ∈ tblX, is_valid_option o = true) ∧
    (isErr (argparser_setup tblX "1.0") = true ↔ HasDup tblX) ∧
    isErr (argparser_setup tblX "1.0") = true :=
  ⟨by decide, by decide,
   c5_duplicate_rejection tblX "1.0" (by decide) (by decide),
   by decide⟩

/-- C1 fails on the code: on the valid table `tblG`, whose group labels occur
in the order A,B,A,C,B,D (the very example of the `argparser_help`
documentation in argparser.h), `group_options` emits the label B twice —
the duplicate-group search loop bounds on a local `size_grps` variable that
is never updated, so only the first group can ever be rejoined.  The claim
(and the header documentation) require groups A,B,C,D, each exactly once. -/
theorem c1_group_duplicate_label :
    (∀ o ∈ tblG, is_valid_option o = true) ∧
    has_duplicated_ids tblG = false ∧
    (tblG.map effGroupName) = ["A", "B", "A", "C", "B", "D"] ∧
    (group_options tblG).map OptGroup.name = ["A", "B", "C", "B", "D"] ∧
    ((group_options tblG).map OptGroup.name).count "B" = 2 := by decide

/-- C9 fails on the code: each accessor writes the pool size through its
size out-parameter, but the pool itself is assigned to the local parameter
variable (`arr = mem->flags;`), so the caller's array variable — here
initially `[]` — is left untouched instead of receiving the result
sequence. -/
theorem c9_accessor_bug :
    (argparser_flags exAccessSt 0 []).1 = exAccessSt.flags.length ∧
    (argparser_bflags exAccessSt 0 []).1 = exAccessSt.bflags.length ∧
    (argparser_params exAccessSt 0 []).1 = exAccessSt.params.length ∧
    (argparser_flags exAccessSt 0 []).2 ≠ exAccessSt.flags ∧
    (argparser_bflags exAccessSt 0 []).2 ≠ exAccessSt.bflags ∧
    (argparser_params exAccessSt 0 []).2 ≠ exAccessSt.params := by decide

end Argparser

namespace Fmt

open Argparser (c_isalnum)

theorem index_of_delimGo_bounds (src : List Char) (b : Nat) :
    ∀ (i d : Nat), index_of_delimGo src b i = some d → b < d ∧ d ≤ i := by
  intro i
  induction i with
  | zero => intro d h; simp [index_of_delimGo] at h
  | succ n ih =>
    intro d h
    simp only [index_of_delimGo] at h
    by_cases hle : n + 1 ≤ b
    · rw [if_pos hle] at h; cases h
    · rw [if_neg hle] at h
      cases hget : src.get? (n + 1) with
      | none =>
        simp only [hget] at h
        rcases ih d h with ⟨h1, h2⟩
        exact ⟨h1, by omega⟩
      | some c =>
        simp only [hget] at h
        by_cases hdc : is_delim c = true
        · rw [if_pos hdc] at h
          cases h
          exact ⟨by omega, le_refl _⟩
        · rw [if_neg hdc] at h
          rcases ih d h with ⟨h1, h2⟩
          exact ⟨h1, by omega⟩

theorem index_of_delim_bounds (src : List Char) (b e d : Nat)
    (h : index_of_delim src b e = some d) : b < d ∧ d ≤ e :=
  index_of_delimGo_bounds src b e d h

theorem index_of_charGo_bounds (src : List Char) :
    ∀ (fuel i r : Nat), index_of_charGo src fuel i = some r →
      i ≤ r ∧ r < src.length := by
  intro fuel
  induction fuel with
  | zero => intro i r h; simp [index_of_charGo] at h
  | succ n ih =>
    intro i r h
    simp only [index_of_charGo] at h
    cases hget : src.get? i with
    | none => simp only [hget] at h; cases h
    | some c =>
      simp only [hget] at h
      by_cases hc : (c_isalnum c || !(c == ' ')) = true
      · rw [if_pos hc] at h
        cases h
        have hlt : i < src.length := by
          by_contra hge
          rw [List.get?_eq_none.mpr (by omega)] at hget
          cases hget
        exact ⟨le_refl _, hlt⟩
      · rw [if_neg hc] at h
        rcases ih (i + 1) r h with ⟨h1, h2⟩
        exact ⟨by omega, h2⟩

theorem index_of_charGo_spaces (src : List Char) :
    ∀ (fuel i r : Nat), index_of_charGo src fuel i = some r →
      ∀ k, i ≤ k → k < r → src.get? k = some ' ' := by
  intro fuel
  induction fuel with
  | zero => intro i r h; simp [index_of_charGo] at h
  | succ n ih =>
    intro i r h k hik hkr
    simp only [index_of_charGo] at h
    cases hget : src.get? i with
    | none => simp only [hget] at h; cases h
    | some c =>
      simp only [hget] at h
      by_cases hc : (c_isalnum c || !(c == ' ')) = true
      · rw [if_pos hc] at h
        cases h
        omega
      · rw [if_neg hc] at h
        have hc' : (c_isalnum c || !(c == ' ')) = false := by simpa using hc
        by_cases hki : k = i
        · subst hki
          have hcsp : c = ' ' := by
            by_contra hne
            have hb2 : (c == ' ') = false := beq_eq_false_iff_ne.mpr hne
            rw [hb2] at hc'
            simp at hc'
          rw [hget, hcsp]
        · exact ih (i + 1) r h k (by omega) hkr

theorem index_of_charGo_none_spaces (src : List Char) :
    ∀ (fuel i : Nat), index_of_charGo src fuel i = none →
      ∀ k, i ≤ k → k < i + fuel → k < src.length → src.get? k = some ' ' := by
  intro fuel
  induction fuel with
  | zero => intro i h k h1 h2 h3; omega
  | succ n ih =>
    intro i h k h1 h2 h3
    simp only [index_of_charGo] at h
    cases hget : src.get? i with
    | none =>
      have hlen : src.length ≤ i := List.get?_eq_none.mp hget
      omega
    | some c =>
      simp only [hget] at h
      by_cases hc : (c_isalnum c || !(c == ' ')) = true
      · rw [if_pos hc] at h; cases h
      · rw [if_neg hc] at h
        have hc' : (c_isalnum c || !(c == ' ')) = false := by simpa using hc
        have hcsp : c = ' ' := by
          by_contra hne
          have hb2 : (c == ' ') = false := beq_eq_false_iff_ne.mpr hne
          rw [hb2] at hc'
          simp at hc'
        by_cases hki : k = i
        · subst hki
          rw [hget, hcsp]
        · exact ih (i + 1) h k (by omega) (by omega) h3

theorem index_of_char_some_bounds (src : List Char) (b r : Nat)
    (h : index_of_char src b = some r) : b ≤ r ∧ r < src.length :=
  index_of_charGo_bounds src _ b r h

theorem index_of_char_some_spaces (src : List Char) (b r : Nat)
    (h : index_of_char src b = some r) :
    ∀ k, b ≤ k → k < r → src.get? k = some ' ' :=
  index_of_charGo_spaces src _ b r h

theorem index_of_char_none_spaces (src : List Char) (b : Nat)
    (h : index_of_char src b = none) :
    ∀ k, b ≤ k → k < src.length → src.get? k = some ' ' := by
  intro k h1 h2
  exact index_of_charGo_none_spaces src _ b h k h1 (by omega) h2

theorem strwrapGo_chunk_len (src : List Char) (lw extra : Nat) (hlw : extra < lw) :
    ∀ (fuel b : Nat), ∀ ch ∈ strwrapGo src lw extra b fuel, ch.length ≤ lw - extra := by
  intro fuel
  induction fuel with
  | zero => intro b ch hch; simp [strwrapGo] at hch
  | succ n ih =>
    intro b ch hch
    simp only [strwrapGo] at hch
    by_cases hcond : b < src.length ∧ b + lw - 1 - extra < src.length
    · rw [if_pos hcond] at hch
      obtain ⟨hb, he⟩ := hcond
      cases hd : index_of_delim src b (b + lw - 1 - extra) with
      | none =>
        simp only [hd] at hch
        cases hic : index_of_char src (b + lw - 1 - extra + 1) with
        | none =>
          simp only [hic, List.mem_singleton] at hch
          subst hch
          rw [List.length_take, List.length_drop]
          have hbnd : b + lw - 1 - extra - b + 1 ≤ lw - extra := by omega
          exact le_trans (min_le_left _ _) hbnd
        | some b2 =>
          simp only [hic, List.mem_cons] at hch
          rcases hch with rfl | hch2
          · rw [List.length_take, List.length_drop]
            have hbnd : b + lw - 1 - extra - b + 1 ≤ lw - extra := by omega
            exact le_trans (min_le_left _ _) hbnd
          · exact ih b2 ch hch2
      | some d =>
        have hdb := index_of_delim_bounds src b _ d hd
        simp only [hd] at hch
        cases hic : index_of_char src (d + 1) with
        | none =>
          simp only [hic, List.mem_singleton] at hch
          subst hch
          rw [List.length_take, List.length_drop]
          have hbnd : d - b + 1 ≤ lw - extra := by omega
          exact le_trans (min_le_left _ _) hbnd
        | some b2 =>
          simp only [hic, List.mem_cons] at hch
          rcases hch with rfl | hch2
          · rw [List.length_take, List.length_drop]
            have hbnd : d - b + 1 ≤ lw - extra := by omega
            exact le_trans (min_le_left _ _) hbnd
          · exact ih b2 ch hch2
    · rw [if_neg hcond] at hch
      by_cases hb : b < src.length
      · rw [if_pos hb] at hch
        simp only [List.mem_singleton] at hch
        subst hch
        rw [List.length_drop]
        omega
      · rw [if_neg hb] at hch
        simp at hch

theorem drop_split (src : List Char) (s t : Nat) (hst : s ≤ t) :
    src.drop s = (src.drop s).take (t - s) ++ src.drop t := by
  conv_lhs => rw [← List.take_append_drop (t - s) (src.drop s)]
  congr 1
  rw [List.drop_drop]
  congr 1
  omega

theorem count_eq_zero_of_spaces {g : List Char} (hg : ∀ c ∈ g, c = ' ')
    {c : Char} (hc : c ≠ ' ') : g.count c = 0 := by
  rw [List.count_eq_zero]
  intro hmem
  exact hc (hg c hmem)

theorem strwrapGo_join (src : List Char) (lw extra : Nat) (hlw : extra < lw) :
    ∀ (fuel b : Nat), src.length < b + fuel →
      (List.Sublist ((strwrapGo src lw extra b fuel).flatten) (src.drop b)) ∧
      (∀ c, c ≠ ' ' →
        ((strwrapGo src lw extra b fuel).flatten).count c = (src.drop b).count c) := by
  intro fuel
  induction fuel with
  | zero =>
    intro b hfb
    have hdrop : src.drop b = [] := List.drop_eq_nil_of_le (by omega)
    simp [strwrapGo, hdrop]
  | succ n ih =>
    intro b hfb
    by_cases hcond : b < src.length ∧ b + lw - 1 - extra < src.length
    · obtain ⟨hb, he⟩ := hcond
      have keyNone : ∀ cut : Nat, b ≤ cut → index_of_char src (cut + 1) = none →
          (List.Sublist (([(src.drop b).take (cut - b + 1)]).flatten) (src.drop b)) ∧
          (∀ c, c ≠ ' ' →
            (([(src.drop b).take (cut - b + 1)]).flatten).count c = (src.drop b).count c) := by
        intro cut hbc hic
        have hsplit : src.drop b = (src.drop b).take (cut - b + 1) ++ src.drop (cut + 1) := by
          have hds := drop_split src b (cut + 1) (by omega)
          rwa [show cut + 1 - b = cut - b + 1 by omega] at hds
        have hsp : ∀ c ∈ src.drop (cut + 1), c = ' ' := by
          intro c hc
          rcases List.mem_iff_get?.mp hc with ⟨q, hq⟩
          rcases List.get?_eq_some.mp hq with ⟨hqlt, _⟩
          rw [List.length_drop] at hqlt
          rw [List.get?_drop] at hq
          have hsome := index_of_char_none_spaces src (cut + 1) hic (cut + 1 + q)
            (by omega) (by omega)
          rw [hsome] at hq
          exact (Option.some_inj.mp hq).symm
        constructor
        · have hsub : List.Sublist (([(src.drop b).take (cut - b + 1)]).flatten)
              ((src.drop b).take (cut - b + 1) ++ src.drop (cut + 1)) := by
            simpa using List.sublist_append_left _ _
          rw [← hsplit] at hsub
          exact hsub
        · intro c hc
          have h1 : ((src.drop b).take (cut - b + 1) ++ src.drop (cut + 1)).count c
              = (([(src.drop b).take (cut - b + 1)]).flatten).count c := by
            simp [List.count_append, count_eq_zero_of_spaces hsp hc]
          rw [← hsplit] at h1
          exact h1.symm
      have keySome : ∀ cut b2 : Nat, b ≤ cut → index_of_char src (cut + 1) = some b2 →
          (List.Sublist ((((src.drop b).take (cut - b + 1)) :: strwrapGo src lw extra b2 n).flatten) (src.drop b)) ∧
          (∀ c, c ≠ ' ' →
            ((((src.drop b).take (cut - b + 1)) :: strwrapGo src lw extra b2 n).flatten).count c
              = (src.drop b).count c) := by
        intro cut b2 hbc hic
        have hbnd := index_of_char_some_bounds src (cut + 1) b2 hic
        have hsplit : src.drop b = (src.drop b).take (cut - b + 1) ++ src.drop (cut + 1) := by
          have hds := drop_split src b (cut + 1) (by omega)
          rwa [show cut + 1 - b = cut - b + 1 by omega] at hds
        have hbl : src.length < b2 + n := by omega
        rcases ih b2 hbl with ⟨ihs, ihc⟩
        have hgap : src.drop (cut + 1)
            = (src.drop (cut + 1)).take (b2 - (cut + 1)) ++ src.drop b2 :=
          drop_split src (cut + 1) b2 hbnd.1
        have hgsp : ∀ c ∈ (src.drop (cut + 1)).take (b2 - (cut + 1)), c = ' ' := by
          intro c hc
          rcases List.mem_iff_get?.mp hc with ⟨q, hq⟩
          rcases List.get?_eq_some.mp hq with ⟨hqlt, _⟩
          rw [List.length_take, List.length_drop] at hqlt
          rw [List.get?_take (by omega), List.get?_drop] at hq
          have hsome := index_of_char_some_spaces src (cut + 1) b2 hic (cut + 1 + q)
            (by omega) (by omega)
          rw [hsome] at hq
          exact (Option.some_inj.mp hq).symm
        constructor
        · have hs2 : List.Sublist ((strwrapGo src lw extra b2 n).flatten) (src.drop (cut + 1)) := by
            refine ihs.trans ?_
            have hs3 : List.Sublist (src.drop b2)
                ((src.drop (cut + 1)).take (b2 - (cut + 1)) ++ src.drop b2) :=
              List.sublist_append_right _ _
            rw [← hgap] at hs3
            exact hs3
          have hs4 : List.Sublist ((((src.drop b).take (cut - b + 1)) :: strwrapGo src lw extra b2 n).flatten)
              ((src.drop b).take (cut - b + 1) ++ src.drop (cut + 1)) := by
            rw [List.flatten_cons]
            exact List.Sublist.append_left hs2 _
          rw [← hsplit] at hs4
          exact hs4
        · intro c hc
          have e1 : (src.drop b).count c
              = ((src.drop b).take (cut - b + 1)).count c + (src.drop (cut + 1)).count c := by
            conv_lhs => rw [hsplit]
            rw [List.count_append]
          have e2 : (src.drop (cut + 1)).count c
              = ((src.drop (cut + 1)).take (b2 - (cut + 1))).count c + (src.drop b2).count c := by
            conv_lhs => rw [hgap]
            rw [List.count_append]
          have e3 : ((src.drop (cut + 1)).take (b2 - (cut + 1))).count c = 0 :=
            count_eq_zero_of_spaces hgsp hc
          have e4 := ihc c hc
          simp only [List.flatten_cons, List.count_append]
          omega
      simp only [strwrapGo]
      rw [if_pos ⟨hb, he⟩]
      cases hd : index_of_delim src b (b + lw - 1 - extra) with
      | none =>
        simp only [hd]
        cases hic : index_of_char src (b + lw - 1 - extra + 1) with
        | none =>
          simp only [hic]
          exact keyNone (b + lw - 1 - extra) (by omega) hic
        | some b2 =>
          simp only [hic]
          exact keySome (b + lw - 1 - extra) b2 (by omega) hic
      | some d =>
        have hdb := index_of_delim_bounds src b _ d hd
        simp only [hd]
        cases hic : index_of_char src (d + 1) with
        | none =>
          simp only [hic]
          exact keyNone d (by omega) hic
        | some b2 =>
          simp only [hic]
          exact keySome d b2 (by omega) hic
    · by_cases hb : b < src.length
      · have hres : strwrapGo src lw extra b (n + 1) = [src.drop b] := by
          simp only [strwrapGo]
          rw [if_neg hcond, if_pos hb]
        rw [hres]
        simp
      · have hres : strwrapGo src lw extra b (n + 1) = [] := by
          simp only [strwrapGo]
          rw [if_neg hcond, if_neg hb]
        rw [hres]
        have hdrop : src.drop b = [] := List.drop_eq_nil_of_le (by omega)
        simp [hdrop]

/-- C6: every line produced by `strwrap` — prefix and postfix decoration
included, terminating newline excluded — has length at most the requested
width, whenever the width exceeds the total decoration length (the
precondition the specification imposes on callers). -/
theorem c6_line_width (src : List Char) (lw : Nat) (pre post : List Char)
    (h : pre.length + post.length < lw) :
    ∀ line ∈ strwrap src lw pre post, line.length ≤ lw := by
  intro line hline
  rcases List.mem_map.mp hline with ⟨ch, hch, rfl⟩
  have hlen := strwrapGo_chunk_len src lw (pre.length + post.length) h (src.length + 1) 0 ch hch
  simp only [List.length_append]
  omega

/-- Witness for C6: wrapping `hello world` at width 8 with a two-character
prefix produces only lines of length at most 8. -/
theorem c6_witness :
    (("| ".data).length + ([] : List Char).length < 8) ∧
    (∀ line ∈ strwrap ("hello world".data) 8 ("| ".data) [], line.length ≤ 8) :=
  ⟨by decide, c6_line_width ("hello world".data) 8 ("| ".data) [] (by decide)⟩

/-- Counterexample for C7 as stated: the text `a b` has length 3 and the
width 3 satisfies width ≥ length, yet wrapping without decoration
re-segments the text into two lines (`a ` and `b`) instead of returning it
unchanged — at width exactly equal to the length the wrap loop still runs
and breaks at the interior delimiter. -/
theorem c7_counterexample :
    ("a b".data).length ≤ 3 ∧
    strwrap ("a b".data) 3 [] [] = [['a', ' '], ['b']] ∧
    strwrap ("a b".data) 3 [] [] ≠ [("a b".data)] := by decide

/-- C7 (amended): for every non-empty text and every width strictly greater
than the length of the text, `strwrap` with empty decoration returns the
text unchanged as a single line (the C function appends it followed by one
newline), with no re-segmentation.  (At width exactly equal to the length
the text may be re-split at an interior delimiter, and for empty text no
line at all is produced.) -/
theorem c7_wrap_identity_amended (src : List Char) (lw : Nat)
    (h0 : src ≠ []) (hlw : src.length < lw) :
    strwrap src lw [] [] = [src] := by
  have hlen : 0 < src.length := List.length_pos.mpr h0
  unfold strwrap
  simp only [strwrapGo, List.length_nil, Nat.add_zero, Nat.zero_add, Nat.sub_zero]
  rw [if_neg (by omega : ¬(0 < src.length ∧ lw - 1 < src.length)), if_pos hlen]
  simp

/-- Witness for C7's amended theorem: text `ab` at width 5 comes back as the
single line `ab`. -/
theorem c7_witness :
    ("ab".data ≠ [] ∧ ("ab".data).length < 5) ∧
    strwrap ("ab".data) 5 [] [] = [("ab".data)] :=
  ⟨⟨by decide, by decide⟩, c7_wrap_identity_amended ("ab".data) 5 (by decide) (by decide)⟩

/-- Counterexample for C8 as stated: wrapping `ab  cd` (two spaces) at width
3 without decoration yields lines `ab ` and `cd` — the concatenated output
has 5 characters while the source has 6, so a character (the second space,
skipped by the after-break space run scan) is lost, contradicting "never
loses characters". -/
theorem c8_counterexample :
    strwrap ("ab  cd".data) 3 [] [] = [("ab ".data), ("cd".data)] ∧
    ((strwrap ("ab  cd".data) 3 [] []).flatten).length = 5 ∧
    ("ab  cd".data).length = 6 := by decide

/-- C8 (amended): under the documented width precondition, every output line
is the prefix, an undecorated chunk of the source, then the postfix; the
concatenation of the chunks is a sublist of the source (no character is
mutated, reordered or invented, only line breaks and decoration are added),
and every character other than the plain space is preserved exactly — what
can be dropped are only spaces, namely the runs skipped after each break.
(The C function's return value is unconditionally success.) -/
theorem c8_wrap_preservation_amended (src : List Char) (lw : Nat) (pre post : List Char)
    (h : pre.length + post.length < lw) :
    strwrap src lw pre post
      = (strwrapGo src lw (pre.length + post.length) 0 (src.length + 1)).map
          (fun ch => pre ++ ch ++ post) ∧
    (List.Sublist ((strwrapGo src lw (pre.length + post.length) 0 (src.length + 1)).flatten) src) ∧
    (∀ c, c ≠ ' ' →
      ((strwrapGo src lw (pre.length + post.length) 0 (src.length + 1)).flatten).count c
        = src.count c) := by
  have hmain := strwrapGo_join src lw (pre.length + post.length) h (src.length + 1) 0 (by omega)
  refine ⟨rfl, ?_, ?_⟩
  · have hs := hmain.1
    rwa [List.drop_zero] at hs
  · intro c hc
    have hcnt := hmain.2 c hc
    rwa [List.drop_zero] at hcnt

/-- Witness for C8's amended theorem at the counterexample input. -/
theorem c8_witness :
    (([] : List Char).length + ([] : List Char).length < 3) ∧
    (List.Sublist
      ((strwrapGo ("ab  cd".data) 3 (([] : List Char).length + ([] : List Char).length) 0
        (("ab  cd".data).length + 1)).flatten)
      ("ab  cd".data)) :=
  ⟨by decide, (c8_wrap_preservation_amended ("ab  cd".data) 3 [] [] (by decide)).2.1⟩

end Fmt
